import Mathlib

/-!
Verification of the tail offset/windowing engine of `tailr`
(src/tailr/src/lib.rs): take-spec parsing (`parse_num`), offset
resolution (`get_start_index`), the line and byte emitters
(`print_lines`, `print_bytes`) and the per-file driver loop (`run`).

Machine integers are modelled as `Int` with explicit two's-complement
wrapping (`wrap64`) and `as u64` casts (`i64ToU64`) where the Rust code
performs them.  Streams are modelled as lists of bytes (`List Nat`).
-/

set_option maxHeartbeats 1000000

namespace Tailr

/-- The `TakeValue` enum of tailr: `PlusZero` is the `"+0"` marker
("from start"), `TakeNum v` a signed 64-bit count. -/
inductive TakeValue where
  | PlusZero : TakeValue
  | TakeNum : Int → TakeValue
deriving DecidableEq, Repr

open TakeValue

/-- Two's-complement wrap of an integer into the i64 range
`[-2^63, 2^63)`; models the (release-mode) behaviour of i64 addition
and subtraction where they could overflow. -/
def wrap64 (x : Int) : Int := (x + 2 ^ 63) % 2 ^ 64 - 2 ^ 63

/-- The Rust cast `x as u64` for an i64 value `x`: the two's-complement
bit pattern read as an unsigned 64-bit number. -/
def i64ToU64 (x : Int) : Nat := (x % 2 ^ 64).toNat

/-- Embedding of tailr's `get_start_index(take_val, total)`: computes
the candidate start offset and then filters it by
`total > 0 && *v < total as u64`. -/
def get_start_index (take_val : TakeValue) (total : Int) : Option Nat :=
  let start : Option Nat :=
    match take_val with
    | PlusZero => some 0
    | TakeNum val =>
      if val < 0 then some (i64ToU64 (max (wrap64 (total + val)) 0))
      else some (i64ToU64 (wrap64 (val - 1)))
  start.filter (fun v => decide (0 < total) && decide (v < i64ToU64 total))

instance {α β : Type} [DecidableEq α] [DecidableEq β] : DecidableEq (Except α β) := fun x y =>
  match x, y with
  | .ok a, .ok b =>
    if h : a = b then .isTrue (by rw [h]) else .isFalse (by intro hc; cases hc; exact h rfl)
  | .error a, .error b =>
    if h : a = b then .isTrue (by rw [h]) else .isFalse (by intro hc; cases hc; exact h rfl)
  | .ok _, .error _ => .isFalse (by intro hc; cases hc)
  | .error _, .ok _ => .isFalse (by intro hc; cases hc)

/-- A nonempty all-digit run folded to its value; models the digit part
of Rust `i64::from_str`. -/
def parseDigits (cs : List Char) : Option Nat :=
  if cs.isEmpty then none
  else if cs.all Char.isDigit then
    some (cs.foldl (fun acc c => acc * 10 + (c.toNat - 48)) 0)
  else none

/-- Embedding of Rust `str::parse::<i64>`: an optional leading `'+'` or
`'-'`, then one or more ASCII digits, with the value required to fit in
the signed 64-bit range. -/
def parseI64 (s : String) : Option Int :=
  let (sign, digits) :=
    match s.toList with
    | '+' :: rest => ((1 : Int), rest)
    | '-' :: rest => ((-1 : Int), rest)
    | cs => ((1 : Int), cs)
  match parseDigits digits with
  | none => none
  | some n =>
    let v : Int := sign * n
    if -(2 ^ 63) ≤ v ∧ v < 2 ^ 63 then some v else none

/-- Rust `str::starts_with('+')` on the character stream of the
string. -/
def startsWithPlus (s : String) : Bool :=
  match s.toList with
  | '+' :: _ => true
  | _ => false

/-- Embedding of tailr's `parse_num`: `"+0"` is `PlusZero`; a
`'+'`-prefixed token is parsed literally; any other token is parsed and
then negated when positive; a failed parse yields the token itself as
the error payload. -/
def parse_num (value : String) : Except String TakeValue :=
  if value = "+0" then Except.ok PlusZero
  else if startsWithPlus value then
    match parseI64 value with
    | some v => Except.ok (TakeNum v)
    | none => Except.error value
  else
    match parseI64 value with
    | some v => Except.ok (TakeNum (if v ≤ 0 then v else -v))
    | none => Except.error value

example : parse_num "3" = Except.ok (TakeNum (-3)) := by decide
example : parse_num "+3" = Except.ok (TakeNum 3) := by decide
example : parse_num "-3" = Except.ok (TakeNum (-3)) := by decide
example : parse_num "0" = Except.ok (TakeNum 0) := by decide
example : parse_num "+0" = Except.ok PlusZero := by decide
example : parse_num "3.14" = Except.error "3.14" := by decide
example : parse_num "foo" = Except.error "foo" := by decide
example : get_start_index PlusZero 0 = none := by decide
example : get_start_index PlusZero 1 = some 0 := by decide
example : get_start_index (TakeNum 0) 1 = none := by decide
example : get_start_index (TakeNum 1) 0 = none := by decide
example : get_start_index (TakeNum 2) 1 = none := by decide
example : get_start_index (TakeNum 3) 10 = some 2 := by decide
example : get_start_index (TakeNum (-3)) 10 = some 7 := by decide
example : get_start_index (TakeNum (-20)) 10 = some 0 := by decide

theorem wrap64_eq_self {x : Int} (h1 : -(2 ^ 63) ≤ x) (h2 : x < 2 ^ 63) : wrap64 x = x := by
  unfold wrap64; omega

theorem i64ToU64_eq_toNat {x : Int} (h1 : 0 ≤ x) (h2 : x < 2 ^ 64) : i64ToU64 x = x.toNat := by
  unfold i64ToU64; omega

/-- C1: for every take spec (`PlusZero` or any `TakeNum v`) and every
`total ≤ 0`, `get_start_index` returns `none`. -/
theorem get_start_index_nonpos_total (tv : TakeValue) (total : Int) (h : total ≤ 0) :
    get_start_index tv total = none := by
  have h0 : decide (0 < total) = false := by simp; omega
  cases tv with
  | PlusZero => simp [get_start_index, Option.filter, h0]
  | TakeNum val =>
    by_cases hv : val < 0 <;> simp [get_start_index, Option.filter, hv, h0]

/-- C1 witness. -/
theorem get_start_index_nonpos_total_witness :
    get_start_index TakeValue.PlusZero 0 = none :=
  get_start_index_nonpos_total TakeValue.PlusZero 0 (by decide)

theorem gsi_filter (total : Int) (c : Nat) :
    Option.filter (fun v => decide (0 < total) && decide (v < i64ToU64 total)) (some c) =
      if 0 < total ∧ c < i64ToU64 total then some c else none := by
  by_cases h1 : 0 < total <;> by_cases h2 : c < i64ToU64 total <;>
    simp [Option.filter, h1, h2]

theorem get_start_index_plusZero (total : Int) :
    get_start_index TakeValue.PlusZero total =
      if 0 < total ∧ 0 < i64ToU64 total then some 0 else none := by
  simp only [get_start_index]
  exact gsi_filter total 0

theorem get_start_index_negCase (val total : Int) (h : val < 0) :
    get_start_index (TakeValue.TakeNum val) total =
      if 0 < total ∧ i64ToU64 (max (wrap64 (total + val)) 0) < i64ToU64 total
      then some (i64ToU64 (max (wrap64 (total + val)) 0)) else none := by
  simp only [get_start_index]
  rw [if_pos h]
  exact gsi_filter total _

theorem get_start_index_nonnegCase (val total : Int) (h : ¬val < 0) :
    get_start_index (TakeValue.TakeNum val) total =
      if 0 < total ∧ i64ToU64 (wrap64 (val - 1)) < i64ToU64 total
      then some (i64ToU64 (wrap64 (val - 1))) else none := by
  simp only [get_start_index]
  rw [if_neg h]
  exact gsi_filter total _

/-- C2: for `0 < total` in the i64 range, `PlusZero` resolves to
`some 0`; a negative count `v` resolves to `some (max (total + v) 0)`;
a zero count resolves to `none`; a positive count `v` resolves to
`none` when `v - 1 ≥ total` and to `some (v - 1)` otherwise. -/
theorem get_start_index_pos_total (total : Int) (h1 : 0 < total) (h2 : total < 2 ^ 63) :
    get_start_index TakeValue.PlusZero total = some 0 ∧
    (∀ v : Int, -(2 ^ 63) ≤ v → v < 0 →
      get_start_index (TakeValue.TakeNum v) total = some (max (total + v) 0).toNat) ∧
    get_start_index (TakeValue.TakeNum 0) total = none ∧
    (∀ v : Int, 0 < v → v < 2 ^ 63 →
      get_start_index (TakeValue.TakeNum v) total =
        if total ≤ v - 1 then none else some (v - 1).toNat) := by
  have ht : i64ToU64 total = total.toNat := by unfold i64ToU64; omega
  refine ⟨?_, ?_, ?_, ?_⟩
  · rw [get_start_index_plusZero, if_pos ⟨h1, by unfold i64ToU64; omega⟩]
  · intro v hv1 hv2
    rw [get_start_index_negCase v total hv2,
      wrap64_eq_self (by omega) (by omega),
      i64ToU64_eq_toNat (by omega) (by omega), ht,
      if_pos ⟨h1, by omega⟩]
  · rw [get_start_index_nonnegCase 0 total (by omega),
      show wrap64 ((0 : Int) - 1) = -1 from by unfold wrap64; omega,
      show i64ToU64 (-1 : Int) = 2 ^ 64 - 1 from by unfold i64ToU64; omega, ht,
      if_neg (by omega)]
  · intro v hv1 hv2
    rw [get_start_index_nonnegCase v total (by omega),
      wrap64_eq_self (by omega) (by omega),
      i64ToU64_eq_toNat (by omega) (by omega), ht]
    by_cases hcase : total ≤ v - 1
    · rw [if_neg (by omega), if_pos hcase]
    · rw [if_pos ⟨h1, by omega⟩, if_neg hcase]

/-- C2 witness. -/
theorem get_start_index_pos_total_witness :
    get_start_index TakeValue.PlusZero 10 = some 0 ∧
    get_start_index (TakeValue.TakeNum (-3)) 10 = some (max (10 + (-3) : Int) 0).toNat ∧
    get_start_index (TakeValue.TakeNum 0) 10 = none ∧
    get_start_index (TakeValue.TakeNum 3) 10 =
      if (10 : Int) ≤ 3 - 1 then none else some ((3 : Int) - 1).toNat := by
  obtain ⟨a, b, c, d⟩ := get_start_index_pos_total 10 (by decide) (by decide)
  exact ⟨a, b (-3) (by decide) (by decide), c, d 3 (by decide) (by decide)⟩

/-- C3: whenever the resolver returns `some start` for an i64 `total`,
`start` is strictly less than `total` (and in particular `0 < total`). -/
theorem get_start_index_some_lt (tv : TakeValue) (total : Int) (start : Nat)
    (h2 : total < 2 ^ 63) (h : get_start_index tv total = some start) :
    0 < total ∧ (start : Int) < total := by
  have main : ∀ c : Nat,
      (if 0 < total ∧ c < i64ToU64 total then some c else none) = some start →
        0 < total ∧ (start : Int) < total := by
    intro c hc
    split at hc
    · rename_i hcond
      cases hc
      obtain ⟨hpos, hlt⟩ := hcond
      unfold i64ToU64 at hlt
      omega
    · cases hc
  cases tv with
  | PlusZero =>
    rw [get_start_index_plusZero] at h
    exact main 0 h
  | TakeNum val =>
    by_cases hv : val < 0
    · rw [get_start_index_negCase val total hv] at h
      exact main _ h
    · rw [get_start_index_nonnegCase val total hv] at h
      exact main _ h

/-- C3 witness. -/
theorem get_start_index_some_lt_witness :
    0 < (10 : Int) ∧ ((7 : Nat) : Int) < 10 :=
  get_start_index_some_lt (TakeValue.TakeNum (-3)) 10 7 (by decide) (by decide)

/-- C4: `parse_num` maps `"+0"` to `PlusZero`; any other `'+'`-prefixed
token that parses as an i64 to `TakeNum` of that literal value; and any
non-`'+'`-prefixed token that parses as an i64 value `v` to
`TakeNum (-v)` when `0 < v` and to `TakeNum v` otherwise. -/
theorem parse_num_classification :
    parse_num "+0" = Except.ok TakeValue.PlusZero ∧
    (∀ (s : String) (v : Int), s ≠ "+0" → startsWithPlus s = true → parseI64 s = some v →
      parse_num s = Except.ok (TakeValue.TakeNum v)) ∧
    (∀ (s : String) (v : Int), startsWithPlus s = false → parseI64 s = some v →
      parse_num s = Except.ok (TakeValue.TakeNum (if 0 < v then -v else v))) := by
  refine ⟨by decide, ?_, ?_⟩
  · intro s v hne hplus hparse
    unfold parse_num
    rw [if_neg hne, if_pos hplus, hparse]
  · intro s v hplus hparse
    have hne : s ≠ "+0" := by
      intro he
      rw [he] at hplus
      exact absurd hplus (by decide)
    unfold parse_num
    rw [if_neg hne, if_neg (by simp [hplus]), hparse]
    show Except.ok (TakeValue.TakeNum (if v ≤ 0 then v else -v)) =
      Except.ok (TakeValue.TakeNum (if 0 < v then -v else v))
    by_cases hv : v ≤ 0
    · rw [if_pos hv, if_neg (by omega)]
    · rw [if_neg hv, if_pos (by omega)]

/-- C4 witness. -/
theorem parse_num_classification_witness :
    parse_num "+0" = Except.ok TakeValue.PlusZero ∧
    parse_num "+3" = Except.ok (TakeValue.TakeNum 3) ∧
    parse_num "3" = Except.ok (TakeValue.TakeNum (if 0 < (3 : Int) then -3 else 3)) :=
  ⟨parse_num_classification.1,
   parse_num_classification.2.1 "+3" 3 (by decide) (by decide) (by decide),
   parse_num_classification.2.2 "3" 3 (by decide) (by decide)⟩

/-- C5: any token other than `"+0"` that does not parse as an i64 makes
`parse_num` fail with the token itself as the error payload. -/
theorem parse_num_error_payload (s : String) (h0 : s ≠ "+0") (h : parseI64 s = none) :
    parse_num s = Except.error s := by
  unfold parse_num
  rw [if_neg h0]
  by_cases hp : startsWithPlus s = true
  · rw [if_pos hp, h]
  · rw [if_neg hp, h]

/-- C5 witness. -/
theorem parse_num_error_payload_witness :
    parse_num "foo" = Except.error "foo" :=
  parse_num_error_payload "foo" (by decide) (by decide)

/-- C6: 64-bit boundary behaviour: the bare decimal string of
`i64::MIN` parses to `TakeNum i64::MIN` (unnegated), the bare decimal
string of `i64::MAX` to `TakeNum (-i64::MAX)`, the `'+'`-prefixed
string of `i64::MAX` to `TakeNum i64::MAX`, and for every positive i64
`total` the resolver sends `TakeNum i64::MIN` to `some 0`. -/
theorem parse_num_boundary :
    parse_num "-9223372036854775808" = Except.ok (TakeValue.TakeNum (-(2 ^ 63))) ∧
    parse_num "9223372036854775807" = Except.ok (TakeValue.TakeNum (-(2 ^ 63 - 1))) ∧
    parse_num "+9223372036854775807" = Except.ok (TakeValue.TakeNum (2 ^ 63 - 1)) ∧
    (∀ total : Int, 0 < total → total < 2 ^ 63 →
      get_start_index (TakeValue.TakeNum (-(2 ^ 63))) total = some 0) := by
  refine ⟨by decide, by decide, by decide, ?_⟩
  intro total h1 h2
  rw [get_start_index_negCase _ total (by omega),
    show wrap64 (total + -(2 ^ 63)) = total - 2 ^ 63 from by unfold wrap64; omega,
    show max (total - 2 ^ 63) 0 = 0 from by omega,
    show i64ToU64 (0 : Int) = 0 from by unfold i64ToU64; omega,
    if_pos ⟨h1, by unfold i64ToU64; omega⟩]

/-- C6 witness. -/
theorem parse_num_boundary_witness :
    get_start_index (TakeValue.TakeNum (-(2 ^ 63))) 5 = some 0 :=
  parse_num_boundary.2.2.2 5 (by decide) (by decide)

/-- One step of the UTF-8 decoder underlying
`String::from_utf8_lossy` ("substitution of maximal subparts"): from a
nonempty byte stream, return `some` decoded scalar value — or `none`
for an invalid sequence — together with the rest of the stream (the
bytes after the decoded scalar, or after the invalid maximal prefix). -/
def utf8Step : List Nat → Option Nat × List Nat
  | [] => (none, [])
  | b :: bs =>
    if b ≤ 0x7F then (some b, bs)
    else if b < 0xC2 then (none, bs)
    else if b ≤ 0xDF then
      match bs with
      | [] => (none, [])
      | b1 :: rest =>
        if 0x80 ≤ b1 ∧ b1 ≤ 0xBF then (some ((b - 0xC0) * 64 + (b1 - 0x80)), rest)
        else (none, b1 :: rest)
    else if b ≤ 0xEF then
      match bs with
      | [] => (none, [])
      | b1 :: bs1 =>
        if (if b = 0xE0 then 0xA0 else 0x80) ≤ b1 ∧ b1 ≤ (if b = 0xED then 0x9F else 0xBF) then
          match bs1 with
          | [] => (none, [])
          | b2 :: rest =>
            if 0x80 ≤ b2 ∧ b2 ≤ 0xBF then
              (some ((b - 0xE0) * 4096 + (b1 - 0x80) * 64 + (b2 - 0x80)), rest)
            else (none, b2 :: rest)
        else (none, b1 :: bs1)
    else if b ≤ 0xF4 then
      match bs with
      | [] => (none, [])
      | b1 :: bs1 =>
        if (if b = 0xF0 then 0x90 else 0x80) ≤ b1 ∧ b1 ≤ (if b = 0xF4 then 0x8F else 0xBF) then
          match bs1 with
          | [] => (none, [])
          | b2 :: bs2 =>
            if 0x80 ≤ b2 ∧ b2 ≤ 0xBF then
              match bs2 with
              | [] => (none, [])
              | b3 :: rest =>
                if 0x80 ≤ b3 ∧ b3 ≤ 0xBF then
                  (some ((b - 0xF0) * 262144 + (b1 - 0x80) * 4096 + (b2 - 0x80) * 64 +
                    (b3 - 0x80)), rest)
                else (none, b3 :: rest)
            else (none, b2 :: bs2)
        else (none, b1 :: bs1)
    else (none, bs)

theorem utf8Step_snd_lt (b : Nat) (bs : List Nat) :
    (utf8Step (b :: bs)).2.length < (b :: bs).length := by
  unfold utf8Step
  repeat' split
  all_goals simp_all [List.length_cons]
  all_goals omega

/-- The scalar-value stream produced by `String::from_utf8_lossy`:
each decoding error contributes one U+FFFD replacement character. -/
def utf8Lossy : List Nat → List Nat
  | [] => []
  | b :: bs =>
    let s := utf8Step (b :: bs)
    (match s.1 with
     | some cp => cp
     | none => 0xFFFD) :: utf8Lossy s.2
termination_by l => l.length
decreasing_by exact utf8Step_snd_lt _ _

/-- The strict UTF-8 decoder: `some` scalar-value stream when the bytes
are valid UTF-8, `none` otherwise. -/
def utf8DecodeStrict : List Nat → Option (List Nat)
  | [] => some []
  | b :: bs =>
    let s := utf8Step (b :: bs)
    match s.1 with
    | some cp => (utf8DecodeStrict s.2).map (fun cps => cp :: cps)
    | none => none
termination_by l => l.length
decreasing_by exact utf8Step_snd_lt _ _

/-- UTF-8 encoding of one scalar value. -/
def utf8EncodeChar (cp : Nat) : List Nat :=
  if cp < 0x80 then [cp]
  else if cp < 0x800 then [0xC0 + cp / 64, 0x80 + cp % 64]
  else if cp < 0x10000 then [0xE0 + cp / 4096, 0x80 + cp / 64 % 64, 0x80 + cp % 64]
  else [0xF0 + cp / 262144, 0x80 + cp / 4096 % 64, 0x80 + cp / 64 % 64, 0x80 + cp % 64]

/-- UTF-8 encoding of a scalar-value stream: the bytes a Rust `String`
with those characters occupies, i.e. what printing it writes to the
output sink. -/
def utf8EncodeAll (cps : List Nat) : List Nat := (cps.map utf8EncodeChar).flatten

/-- Embedding of tailr's `print_bytes(file, num_bytes, total_bytes)`:
seek to the resolved offset, read the remaining bytes and print
`String::from_utf8_lossy` of them; the bytes written to the output sink
are returned. -/
def print_bytes (file : List Nat) (num_bytes : TakeValue) (total_bytes : Int) : List Nat :=
  match get_start_index num_bytes total_bytes with
  | none => []
  | some offset => utf8EncodeAll (utf8Lossy (file.drop offset))

theorem utf8Step_sound (b : Nat) (bs : List Nat) (cp : Nat) (rest : List Nat)
    (h : utf8Step (b :: bs) = (some cp, rest)) :
    utf8EncodeChar cp ++ rest = b :: bs := by
  simp only [utf8Step] at h
  by_cases h7 : b ≤ 0x7F
  · rw [if_pos h7] at h
    simp only [Prod.mk.injEq, Option.some.injEq] at h
    obtain ⟨rfl, rfl⟩ := h
    simp only [utf8EncodeChar]
    rw [if_pos (by omega)]
    rfl
  rw [if_neg h7] at h
  by_cases hc2 : b < 0xC2
  · rw [if_pos hc2] at h
    simp at h
  rw [if_neg hc2] at h
  by_cases hdf : b ≤ 0xDF
  · rw [if_pos hdf] at h
    cases bs with
    | nil => simp at h
    | cons b1 bs1 =>
      simp only [] at h
      by_cases hb1 : 0x80 ≤ b1 ∧ b1 ≤ 0xBF
      · rw [if_pos hb1] at h
        simp only [Prod.mk.injEq, Option.some.injEq] at h
        obtain ⟨rfl, rfl⟩ := h
        simp only [utf8EncodeChar]
        rw [if_neg (by omega), if_pos (by omega)]
        simp only [List.cons_append, List.nil_append, List.cons.injEq]
        refine ⟨by omega, by omega, trivial⟩
      · rw [if_neg hb1] at h
        simp at h
  rw [if_neg hdf] at h
  by_cases hef : b ≤ 0xEF
  · rw [if_pos hef] at h
    cases bs with
    | nil => simp at h
    | cons b1 bs1 =>
      simp only [] at h
      by_cases hb1 : (if b = 0xE0 then 0xA0 else 0x80) ≤ b1 ∧
          b1 ≤ (if b = 0xED then 0x9F else 0xBF)
      · rw [if_pos hb1] at h
        obtain ⟨hb1a, hb1b⟩ := hb1
        have hlo : (b = 0xE0 ∧ 0xA0 ≤ b1) ∨ (¬b = 0xE0 ∧ 0x80 ≤ b1) := by
          by_cases hbe : b = 0xE0
          · exact Or.inl ⟨hbe, by rwa [if_pos hbe] at hb1a⟩
          · exact Or.inr ⟨hbe, by rwa [if_neg hbe] at hb1a⟩
        have hhi : b1 ≤ 0xBF := by
          by_cases hbe : b = 0xED
          · rw [if_pos hbe] at hb1b; omega
          · rwa [if_neg hbe] at hb1b
        cases bs1 with
        | nil => simp at h
        | cons b2 bs2 =>
          simp only [] at h
          by_cases hb2 : 0x80 ≤ b2 ∧ b2 ≤ 0xBF
          · rw [if_pos hb2] at h
            simp only [Prod.mk.injEq, Option.some.injEq] at h
            obtain ⟨rfl, rfl⟩ := h
            simp only [utf8EncodeChar]
            rw [if_neg (by omega), if_neg (by omega), if_pos (by omega)]
            simp only [List.cons_append, List.nil_append, List.cons.injEq]
            refine ⟨by omega, by omega, by omega, trivial⟩
          · rw [if_neg hb2] at h
            simp at h
      · rw [if_neg hb1] at h
        simp at h
  rw [if_neg hef] at h
  by_cases hf4 : b ≤ 0xF4
  · rw [if_pos hf4] at h
    cases bs with
    | nil => simp at h
    | cons b1 bs1 =>
      simp only [] at h
      by_cases hb1 : (if b = 0xF0 then 0x90 else 0x80) ≤ b1 ∧
          b1 ≤ (if b = 0xF4 then 0x8F else 0xBF)
      · rw [if_pos hb1] at h
        obtain ⟨hb1a, hb1b⟩ := hb1
        have hlo : (b = 0xF0 ∧ 0x90 ≤ b1) ∨ (¬b = 0xF0 ∧ 0x80 ≤ b1) := by
          by_cases hbe : b = 0xF0
          · exact Or.inl ⟨hbe, by rwa [if_pos hbe] at hb1a⟩
          · exact Or.inr ⟨hbe, by rwa [if_neg hbe] at hb1a⟩
        have hhi : b1 ≤ 0xBF := by
          by_cases hbe : b = 0xF4
          · rw [if_pos hbe] at hb1b; omega
          · rwa [if_neg hbe] at hb1b
        cases bs1 with
        | nil => simp at h
        | cons b2 bs2 =>
          simp only [] at h
          by_cases hb2 : 0x80 ≤ b2 ∧ b2 ≤ 0xBF
          · rw [if_pos hb2] at h
            cases bs2 with
            | nil => simp at h
            | cons b3 bs3 =>
              simp only [] at h
              by_cases hb3 : 0x80 ≤ b3 ∧ b3 ≤ 0xBF
              · rw [if_pos hb3] at h
                simp only [Prod.mk.injEq, Option.some.injEq] at h
                obtain ⟨rfl, rfl⟩ := h
                simp only [utf8EncodeChar]
                rw [if_neg (by omega), if_neg (by omega), if_neg (by omega)]
                simp only [List.cons_append, List.nil_append, List.cons.injEq]
                refine ⟨by omega, by omega, by omega, by omega, trivial⟩
              · rw [if_neg hb3] at h
                simp at h
          · rw [if_neg hb2] at h
            simp at h
      · rw [if_neg hb1] at h
        simp at h
  rw [if_neg hf4] at h
  simp at h

theorem utf8_strict_aux : ∀ (n : Nat) (l cps : List Nat), l.length ≤ n →
    utf8DecodeStrict l = some cps → utf8Lossy l = cps ∧ utf8EncodeAll cps = l := by
  intro n
  induction n with
  | zero =>
    intro l cps h hd
    cases l with
    | nil =>
      rw [utf8DecodeStrict] at hd
      cases hd
      exact ⟨by rw [utf8Lossy], by simp [utf8EncodeAll]⟩
    | cons b bs => simp at h
  | succ n ih =>
    intro l cps h hd
    cases l with
    | nil =>
      rw [utf8DecodeStrict] at hd
      cases hd
      exact ⟨by rw [utf8Lossy], by simp [utf8EncodeAll]⟩
    | cons b bs =>
      simp only [utf8DecodeStrict] at hd
      cases hs : utf8Step (b :: bs) with
      | mk o rest =>
        rw [hs] at hd
        cases o with
        | none => simp at hd
        | some cp =>
          simp only [Option.map_eq_some'] at hd
          obtain ⟨cps', hd', rfl⟩ := hd
          have hlen : rest.length ≤ n := by
            have hlt := utf8Step_snd_lt b bs
            rw [hs] at hlt
            simp only [List.length_cons] at hlt h
            omega
          obtain ⟨ih1, ih2⟩ := ih rest cps' hlen hd'
          constructor
          · simp only [utf8Lossy]
            rw [hs]
            simp only []
            rw [ih1]
          · show utf8EncodeAll (cp :: cps') = b :: bs
            simp only [utf8EncodeAll, List.map_cons, List.flatten_cons]
            simp only [utf8EncodeAll] at ih2
            rw [ih2]
            exact utf8Step_sound b bs cp rest hs

theorem utf8DecodeStrict_lossy (l cps : List Nat) (h : utf8DecodeStrict l = some cps) :
    utf8Lossy l = cps ∧ utf8EncodeAll cps = l :=
  utf8_strict_aux l.length l cps (le_refl _) h

/-- C8 counterexample: on the single invalid byte `0xFF` with a take of
the last one byte, `print_bytes` resolves the offset to `some 0` but
does not emit the byte verbatim — it writes the three-byte UTF-8
encoding of U+FFFD instead, because the code prints
`String::from_utf8_lossy` of the buffer. -/
theorem print_bytes_not_verbatim :
    get_start_index (TakeValue.TakeNum (-1)) 1 = some 0 ∧
    print_bytes [255] (TakeValue.TakeNum (-1)) 1 = [239, 191, 189] ∧
    print_bytes [255] (TakeValue.TakeNum (-1)) 1 ≠ [255] := by
  have h : print_bytes [255] (TakeValue.TakeNum (-1)) 1 = [239, 191, 189] := by
    unfold print_bytes
    rw [show get_start_index (TakeValue.TakeNum (-1)) 1 = some 0 from by decide]
    show utf8EncodeAll (utf8Lossy ([255].drop 0)) = [239, 191, 189]
    simp [utf8Lossy, utf8Step, utf8EncodeAll, utf8EncodeChar]
  exact ⟨by decide, h, by rw [h]; decide⟩

/-- C8 (amended): when the resolver yields `none`, `print_bytes` writes
nothing; when it yields `some offset`, it writes the remaining bytes
passed through lossy UTF-8 substitution — in particular, whenever the
remaining bytes are valid UTF-8 they are copied verbatim, but invalid
sequences are replaced rather than emitted losslessly. -/
theorem print_bytes_spec (file : List Nat) (num_bytes : TakeValue) (total_bytes : Int) :
    (get_start_index num_bytes total_bytes = none →
      print_bytes file num_bytes total_bytes = []) ∧
    (∀ offset, get_start_index num_bytes total_bytes = some offset →
      print_bytes file num_bytes total_bytes = utf8EncodeAll (utf8Lossy (file.drop offset)) ∧
      (∀ cps, utf8DecodeStrict (file.drop offset) = some cps →
        print_bytes file num_bytes total_bytes = file.drop offset)) := by
  constructor
  · intro h
    unfold print_bytes
    rw [h]
  · intro offset h
    constructor
    · unfold print_bytes
      rw [h]
    · intro cps hv
      unfold print_bytes
      rw [h]
      show utf8EncodeAll (utf8Lossy (file.drop offset)) = file.drop offset
      obtain ⟨h1, h2⟩ := utf8DecodeStrict_lossy _ _ hv
      rw [h1, h2]

/-- C8 witness: the valid-UTF-8 stream `"hi"` with a take of the last
one byte is emitted verbatim from offset 1. -/
theorem print_bytes_spec_witness :
    print_bytes [104, 105] (TakeValue.TakeNum (-1)) 2 = [104, 105].drop 1 :=
  ((print_bytes_spec [104, 105] (TakeValue.TakeNum (-1)) 2).2 1 (by decide)).2 [105]
    (by simp [utf8DecodeStrict, utf8Step])

/-- The raw byte-level read of one line, `read_until(b'\n')`:
everything up to and including the first newline byte `10` — or the
whole stream when no newline remains — plus the rest of the stream. -/
def read_until_newline : List Nat → List Nat × List Nat
  | [] => ([], [])
  | b :: bs =>
    if b = 10 then ([b], bs)
    else
      let p := read_until_newline bs
      (b :: p.1, p.2)

theorem read_until_newline_append :
    ∀ l : List Nat, (read_until_newline l).1 ++ (read_until_newline l).2 = l
  | [] => rfl
  | b :: bs => by
    by_cases h : b = 10 <;> simp [read_until_newline, h, read_until_newline_append bs]

theorem read_until_newline_snd_le :
    ∀ l : List Nat, (read_until_newline l).2.length ≤ l.length
  | [] => le_refl _
  | b :: bs => by
    by_cases h : b = 10 <;> simp [read_until_newline, h]
    exact Nat.le_succ_of_le (read_until_newline_snd_le bs)

theorem read_until_newline_snd_lt (b : Nat) (bs : List Nat) :
    (read_until_newline (b :: bs)).2.length < (b :: bs).length := by
  by_cases h : b = 10 <;> simp [read_until_newline, h]
  exact Nat.lt_succ_of_le (read_until_newline_snd_le bs)

/-- The line decomposition of a byte stream: each element is one raw
line with its terminator preserved (the final line may lack one).  Its
length models `BufRead::lines().count()` — `lines()` yields one item
per line read, a line of invalid UTF-8 yielding an `Err` item that
`count` still counts. -/
def linesKeepEnds : List Nat → List (List Nat)
  | [] => []
  | b :: bs =>
    let p := read_until_newline (b :: bs)
    p.1 :: linesKeepEnds p.2
termination_by l => l.length
decreasing_by exact read_until_newline_snd_lt _ _

theorem linesKeepEnds_cons (b : Nat) (bs : List Nat) :
    linesKeepEnds (b :: bs) =
      (read_until_newline (b :: bs)).1 :: linesKeepEnds (read_until_newline (b :: bs)).2 := by
  rw [linesKeepEnds]

theorem linesKeepEnds_join_aux : ∀ (n : Nat) (l : List Nat),
    l.length ≤ n → (linesKeepEnds l).flatten = l := by
  intro n
  induction n with
  | zero =>
    intro l h
    cases l with
    | nil => rw [linesKeepEnds]; rfl
    | cons b bs => simp at h
  | succ n ih =>
    intro l h
    cases l with
    | nil => rw [linesKeepEnds]; rfl
    | cons b bs =>
      rw [linesKeepEnds_cons]
      have h1 := read_until_newline_snd_lt b bs
      rw [List.flatten_cons, ih _ (by simp at h1 h ⊢; omega)]
      exact read_until_newline_append (b :: bs)

theorem linesKeepEnds_join (l : List Nat) : (linesKeepEnds l).flatten = l :=
  linesKeepEnds_join_aux l.length l (le_refl _)

/-- Embedding of `BufRead::read_line`: read the raw bytes of one line
with `read_until(b'\n')` and then require the bytes read to be valid
UTF-8 (the `append_to_string` guard), failing with an `InvalidData`
error otherwise.  The bytes are consumed from the stream either way. -/
def read_line (l : List Nat) : Except String (List Nat × List Nat) :=
  let p := read_until_newline l
  match utf8DecodeStrict p.1 with
  | some _ => Except.ok p
  | none => Except.error "stream did not contain valid UTF-8"

theorem read_line_ok_eq {l : List Nat} {p : List Nat × List Nat}
    (h : read_line l = Except.ok p) : p = read_until_newline l := by
  simp only [read_line] at h
  cases hd : utf8DecodeStrict (read_until_newline l).1 with
  | none => rw [hd] at h; simp at h
  | some cps => rw [hd] at h; exact (Except.ok.inj h).symm

theorem read_line_ok_of_valid {l : List Nat}
    (h : (utf8DecodeStrict (read_until_newline l).1).isSome = true) :
    read_line l = Except.ok (read_until_newline l) := by
  obtain ⟨cps, hc⟩ := Option.isSome_iff_exists.mp h
  simp only [read_line]
  rw [hc]

theorem read_line_error_of_invalid {l : List Nat}
    (h : utf8DecodeStrict (read_until_newline l).1 = none) :
    read_line l = Except.error "stream did not contain valid UTF-8" := by
  simp only [read_line]
  rw [h]

theorem read_line_nil : read_line [] = Except.ok ([], []) := by
  have h : (utf8DecodeStrict (read_until_newline []).1).isSome = true := by
    rw [show (read_until_newline ([] : List Nat)).1 = [] from rfl]
    rw [utf8DecodeStrict]
    rfl
  rw [read_line_ok_of_valid h]
  rfl

/-- The discard loop of `print_lines`:
`while offset > 0 { file.read_line(&mut buf)?; offset -= 1 }`; a read
of an invalid-UTF-8 line fails and the error propagates. -/
def dropLinesLoop : Nat → List Nat → Except String (List Nat)
  | 0, file => Except.ok file
  | n + 1, file =>
    match read_line file with
    | .error e => Except.error e
    | .ok p => dropLinesLoop n p.2

/-- The emit loop of `print_lines`: read one line at a time with
`read_line` and write it out until a read returns nothing; returns the
bytes written and, when a read failed, the error that stopped the loop
(lines already written before the failing read stay written). -/
def emit_lines : List Nat → List Nat × Option String
  | [] => ([], none)
  | b :: bs =>
    match h : read_line (b :: bs) with
    | .error e => ([], some e)
    | .ok p =>
      let q := emit_lines p.2
      (p.1 ++ q.1, q.2)
termination_by l => l.length
decreasing_by
  rw [read_line_ok_eq h]
  exact read_until_newline_snd_lt _ _

/-- The body of `print_lines` once the offset is resolved: the discard
loop followed by the emit loop, a failure of either yielding the
propagated error. -/
def tail_lines_from (offset : Nat) (file : List Nat) : List Nat × Option String :=
  match dropLinesLoop offset file with
  | .error e => ([], some e)
  | .ok rest => emit_lines rest

/-- Embedding of tailr's `print_lines(file, num_lines, total_lines)`:
the bytes written to the output sink, together with the propagated
read error when a line was not valid UTF-8 (the `?` aborts the
function; output already written stays written). -/
def print_lines (file : List Nat) (num_lines : TakeValue) (total_lines : Int) :
    List Nat × Option String :=
  match get_start_index num_lines total_lines with
  | none => ([], none)
  | some offset => tail_lines_from offset file

theorem linesKeepEnds_flatten_drop : ∀ (k : Nat) (file : List Nat),
    linesKeepEnds (((linesKeepEnds file).drop k).flatten) = (linesKeepEnds file).drop k := by
  intro k
  induction k with
  | zero =>
    intro file
    rw [List.drop_zero, linesKeepEnds_join]
  | succ k ih =>
    intro file
    cases file with
    | nil => simp [linesKeepEnds]
    | cons b bs =>
      rw [linesKeepEnds_cons, List.drop_succ_cons]
      exact ih (read_until_newline (b :: bs)).2

theorem dropLinesLoop_valid : ∀ (k : Nat) (file : List Nat),
    (∀ l ∈ linesKeepEnds file, (utf8DecodeStrict l).isSome = true) →
    dropLinesLoop k file = Except.ok (((linesKeepEnds file).drop k).flatten) := by
  intro k
  induction k with
  | zero =>
    intro file _
    rw [List.drop_zero, linesKeepEnds_join]
    rfl
  | succ k ih =>
    intro file hval
    cases file with
    | nil =>
      show (match read_line [] with
        | .error e => Except.error e
        | .ok p => dropLinesLoop k p.2) = _
      rw [read_line_nil]
      show dropLinesLoop k [] = _
      rw [ih [] (by intro l hl; rw [linesKeepEnds] at hl; cases hl)]
      simp [linesKeepEnds]
    | cons b bs =>
      have hchunk : (utf8DecodeStrict (read_until_newline (b :: bs)).1).isSome = true := by
        apply hval
        rw [linesKeepEnds_cons]
        exact List.mem_cons_self _ _
      show (match read_line (b :: bs) with
        | .error e => Except.error e
        | .ok p => dropLinesLoop k p.2) = _
      rw [read_line_ok_of_valid hchunk]
      show dropLinesLoop k (read_until_newline (b :: bs)).2 = _
      rw [ih _ (fun l hl => hval l (by
        rw [linesKeepEnds_cons]
        exact List.mem_cons_of_mem _ hl))]
      rw [linesKeepEnds_cons, List.drop_succ_cons]

theorem emit_lines_valid_aux : ∀ (n : Nat) (file : List Nat), file.length ≤ n →
    (∀ l ∈ linesKeepEnds file, (utf8DecodeStrict l).isSome = true) →
    emit_lines file = (file, none) := by
  intro n
  induction n with
  | zero =>
    intro file h _
    cases file with
    | nil => rw [emit_lines]
    | cons b bs => simp at h
  | succ n ih =>
    intro file h hval
    cases file with
    | nil => rw [emit_lines]
    | cons b bs =>
      have hchunk : (utf8DecodeStrict (read_until_newline (b :: bs)).1).isSome = true := by
        apply hval
        rw [linesKeepEnds_cons]
        exact List.mem_cons_self _ _
      rw [emit_lines, read_line_ok_of_valid hchunk]
      show ((read_until_newline (b :: bs)).1 ++ (emit_lines (read_until_newline (b :: bs)).2).1,
          (emit_lines (read_until_newline (b :: bs)).2).2) = (b :: bs, none)
      have hlt := read_until_newline_snd_lt b bs
      rw [ih (read_until_newline (b :: bs)).2 (by simp at hlt h ⊢; omega) (fun l hl => hval l (by
        rw [linesKeepEnds_cons]
        exact List.mem_cons_of_mem _ hl))]
      show ((read_until_newline (b :: bs)).1 ++ (read_until_newline (b :: bs)).2,
          (none : Option String)) = (b :: bs, none)
      rw [read_until_newline_append (b :: bs)]

theorem emit_lines_invalid_aux : ∀ (n : Nat) (file : List Nat), file.length ≤ n →
    (∃ l ∈ linesKeepEnds file, (utf8DecodeStrict l).isSome = false) →
    (emit_lines file).2.isSome = true := by
  intro n
  induction n with
  | zero =>
    intro file h hex
    cases file with
    | nil =>
      obtain ⟨l, hl, _⟩ := hex
      rw [linesKeepEnds] at hl
      cases hl
    | cons b bs => simp at h
  | succ n ih =>
    intro file h hex
    cases file with
    | nil =>
      obtain ⟨l, hl, _⟩ := hex
      rw [linesKeepEnds] at hl
      cases hl
    | cons b bs =>
      cases hd : utf8DecodeStrict (read_until_newline (b :: bs)).1 with
      | none =>
        rw [emit_lines, read_line_error_of_invalid hd]
        rfl
      | some cps =>
        rw [emit_lines, read_line_ok_of_valid (by rw [hd]; rfl)]
        show (emit_lines (read_until_newline (b :: bs)).2).2.isSome = true
        have hlt := read_until_newline_snd_lt b bs
        apply ih _ (by simp at hlt h ⊢; omega)
        obtain ⟨l, hl, hlval⟩ := hex
        rw [linesKeepEnds_cons] at hl
        rcases List.mem_cons.mp hl with heq | hl2
        · rw [heq, hd] at hlval
          simp at hlval
        · exact ⟨l, hl2, hlval⟩

theorem tail_lines_from_valid (k : Nat) (file : List Nat)
    (hval : ∀ l ∈ linesKeepEnds file, (utf8DecodeStrict l).isSome = true) :
    tail_lines_from k file = (((linesKeepEnds file).drop k).flatten, none) := by
  rw [tail_lines_from, dropLinesLoop_valid k file hval]
  show emit_lines (((linesKeepEnds file).drop k).flatten) = _
  apply emit_lines_valid_aux _ _ (le_refl _)
  intro l hl
  rw [linesKeepEnds_flatten_drop] at hl
  exact hval l (List.drop_subset _ _ hl)

theorem tail_lines_from_invalid : ∀ (k : Nat) (file : List Nat),
    (∃ l ∈ linesKeepEnds file, (utf8DecodeStrict l).isSome = false) →
    (tail_lines_from k file).2.isSome = true := by
  intro k
  induction k with
  | zero =>
    intro file hex
    rw [tail_lines_from]
    show (emit_lines file).2.isSome = true
    exact emit_lines_invalid_aux file.length file (le_refl _) hex
  | succ k ih =>
    intro file hex
    cases file with
    | nil =>
      obtain ⟨l, hl, _⟩ := hex
      rw [linesKeepEnds] at hl
      cases hl
    | cons b bs =>
      cases hd : utf8DecodeStrict (read_until_newline (b :: bs)).1 with
      | none =>
        rw [tail_lines_from, dropLinesLoop, read_line_error_of_invalid hd]
        rfl
      | some cps =>
        rw [tail_lines_from, dropLinesLoop, read_line_ok_of_valid (by rw [hd]; rfl)]
        show (tail_lines_from k (read_until_newline (b :: bs)).2).2.isSome = true
        apply ih
        obtain ⟨l, hl, hlval⟩ := hex
        rw [linesKeepEnds_cons] at hl
        rcases List.mem_cons.mp hl with heq | hl2
        · rw [heq, hd] at hlval
          simp at hlval
        · exact ⟨l, hl2, hlval⟩

/-- C7 counterexample: on the stream consisting of the single
non-UTF-8 byte `0xFF` with a take of the last one line, the offset
resolves to `some 0` and the remaining lines are `[[0xFF]]`, but
`print_lines` does not write them verbatim: `read_line` fails the
UTF-8 validity check, so the emitter writes nothing and returns the
`InvalidData` error instead of succeeding. -/
theorem print_lines_not_verbatim :
    get_start_index (TakeValue.TakeNum (-1)) 1 = some 0 ∧
    (linesKeepEnds [255]).flatten = [255] ∧
    print_lines [255] (TakeValue.TakeNum (-1)) 1 =
      ([], some "stream did not contain valid UTF-8") ∧
    (print_lines [255] (TakeValue.TakeNum (-1)) 1).1 ≠ [255] := by
  have hread : read_until_newline [255] = ([255], []) := rfl
  have hinv : utf8DecodeStrict [255] = none := by
    rw [utf8DecodeStrict]
    rfl
  have hrl : read_line [255] = Except.error "stream did not contain valid UTF-8" :=
    read_line_error_of_invalid (by
      rw [show (read_until_newline [255]).1 = [255] from rfl]
      exact hinv)
  have hemit : emit_lines [255] = ([], some "stream did not contain valid UTF-8") := by
    rw [emit_lines, hrl]
  have hmain : print_lines [255] (TakeValue.TakeNum (-1)) 1 =
      ([], some "stream did not contain valid UTF-8") := by
    unfold print_lines
    rw [show get_start_index (TakeValue.TakeNum (-1)) 1 = some 0 from by decide]
    show tail_lines_from 0 [255] = _
    rw [tail_lines_from]
    show emit_lines [255] = _
    exact hemit
  refine ⟨by decide, ?_, hmain, ?_⟩
  · rw [show linesKeepEnds [255] = [[255]] from by
      rw [linesKeepEnds_cons]
      show [255] :: linesKeepEnds [] = [[255]]
      rw [linesKeepEnds]]
    rfl
  · rw [hmain]
    simp

/-- C7 (amended): `print_lines` writes nothing and succeeds when the
resolver returns `none`; when it returns `some k` and every line of
the stream is valid UTF-8, it discards exactly the first `k` lines
(terminator-delimited, a final unterminated line counting as one) and
writes the remaining lines verbatim, terminators preserved, in stream
order; a stream containing an invalid-UTF-8 line instead makes
`print_lines` fail with the propagated `InvalidData` read error. -/
theorem print_lines_spec (file : List Nat) (num_lines : TakeValue) (total_lines : Int) :
    (get_start_index num_lines total_lines = none →
      print_lines file num_lines total_lines = ([], none)) ∧
    (∀ k, get_start_index num_lines total_lines = some k →
      ((∀ l ∈ linesKeepEnds file, (utf8DecodeStrict l).isSome = true) →
        print_lines file num_lines total_lines =
          (((linesKeepEnds file).drop k).flatten, none)) ∧
      ((∃ l ∈ linesKeepEnds file, (utf8DecodeStrict l).isSome = false) →
        (print_lines file num_lines total_lines).2.isSome = true)) := by
  constructor
  · intro h
    unfold print_lines
    rw [h]
  · intro k h
    constructor
    · intro hval
      unfold print_lines
      rw [h]
      exact tail_lines_from_valid k file hval
    · intro hex
      unfold print_lines
      rw [h]
      exact tail_lines_from_invalid k file hex

/-- C7 witness: the valid-UTF-8 stream `"hi"` with a take of the last
one line. -/
theorem print_lines_spec_witness :
    print_lines [104, 105] (TakeValue.TakeNum (-1)) 1 =
      (((linesKeepEnds [104, 105]).drop 0).flatten, none) :=
  ((print_lines_spec [104, 105] (TakeValue.TakeNum (-1)) 1).2 0 (by decide)).1
    (by
      intro l hl
      have hlines : linesKeepEnds [104, 105] = [[104, 105]] := by
        rw [linesKeepEnds_cons]
        show [104, 105] :: linesKeepEnds [] = [[104, 105]]
        rw [linesKeepEnds]
      rw [hlines] at hl
      simp only [List.mem_singleton] at hl
      subst hl
      simp [utf8DecodeStrict, utf8Step])

/-- The UTF-8 bytes of a string, for the text `run` writes to its
sinks. -/
def strBytes (s : String) : List Nat :=
  (s.data.map (fun c => utf8EncodeChar c.toNat)).flatten

/-- The `print_header` closure of `run`: an empty line first unless
this is the very first header, then `==> filename <==`. -/
def print_header_out (filename : String) (first : Bool) : List Nat :=
  (if !first then [10] else []) ++ strBytes ("==> " ++ filename ++ " <==") ++ [10]

/-- `count_lines_bytes` on a file's content: the number of lines as
counted by `BufRead::lines().count()` (an invalid-UTF-8 line still
yields one counted item) and the byte length from the file
metadata. -/
def count_lines_bytes (content : List Nat) : Int × Int :=
  (((linesKeepEnds content).length : Int), ((content.length : Int)))

/-- The per-file emitter call of `run`: `print_bytes` when `-c` was
given (it cannot fail in this model — seeking and reading a list
cannot), `print_lines` otherwise (it fails on invalid-UTF-8 lines). -/
def file_body (lines_tv : TakeValue) (bytes_tv : Option TakeValue) (content : List Nat) :
    List Nat × Option String :=
  let totals := count_lines_bytes content
  match bytes_tv with
  | some num_bytes => (print_bytes content num_bytes totals.2, none)
  | none => print_lines content lines_tv totals.1

/-- The per-file loop of `run`, parameterised by whether more than one
file was listed (`multi`) and the quiet flag, threading the
`printed_header` flag.  Each listed file carries either its content
(successful open) or the message of its open error.  A failed open is
reported to the diagnostic sink and the loop continues; an emitter
error propagates through `?` and aborts the whole loop — nothing later
is written to either sink.  Returns the content-sink bytes, the
diagnostic lines and the error that aborted the run, if any. -/
def run_go (multi quiet : Bool) (lines_tv : TakeValue) (bytes_tv : Option TakeValue) :
    List (String × Except String (List Nat)) → Bool → List Nat × List String × Option String
  | [], _ => ([], [], none)
  | (filename, res) :: rest, printed_header =>
    match res with
    | .error e =>
      let p := run_go multi quiet lines_tv bytes_tv rest printed_header
      (p.1, (filename ++ ": " ++ e) :: p.2.1, p.2.2)
    | .ok content =>
      let headerOut :=
        if multi && !quiet then print_header_out filename (!printed_header) else []
      let printed' := if multi && !quiet then true else printed_header
      let body := file_body lines_tv bytes_tv content
      match body.2 with
      | some e => (headerOut ++ body.1, [], some e)
      | none =>
        let p := run_go multi quiet lines_tv bytes_tv rest printed'
        (headerOut ++ body.1 ++ p.1, p.2.1, p.2.2)

/-- Embedding of tailr's `run(config)`: iterate over the listed files,
reporting failed opens to the diagnostic sink and emitting the tail of
each successfully opened file, with headers when several files are
listed and quiet is off; an emitter error aborts the run. -/
def run (files : List (String × Except String (List Nat))) (lines_tv : TakeValue)
    (bytes_tv : Option TakeValue) (quiet : Bool) : List Nat × List String × Option String :=
  run_go (decide (1 < files.length)) quiet lines_tv bytes_tv files false

theorem run_go_no_abort (multi quiet : Bool) (ltv : TakeValue) (btv : Option TakeValue) :
    ∀ (files : List (String × Except String (List Nat))) (printed : Bool),
      (∀ p ∈ files, ∀ c, p.2 = Except.ok c → (file_body ltv btv c).2 = none) →
      (run_go multi quiet ltv btv files printed).2.1 =
        files.filterMap (fun p =>
          match p.2 with
          | .error e => some (p.1 ++ ": " ++ e)
          | .ok _ => none) ∧
      (run_go multi quiet ltv btv files printed).2.2 = none := by
  intro files
  induction files with
  | nil => intro printed _; exact ⟨rfl, rfl⟩
  | cons q rest ih =>
    intro printed hok
    obtain ⟨filename, res⟩ := q
    cases res with
    | error e =>
      have hr := ih printed (fun p hp => hok p (List.mem_cons_of_mem _ hp))
      constructor
      · simp only [run_go, List.filterMap_cons]
        rw [hr.1]
      · simp only [run_go]
        exact hr.2
    | ok content =>
      have hb : (file_body ltv btv content).2 = none :=
        hok (filename, Except.ok content) (List.mem_cons_self _ _) content rfl
      have hr := ih (if multi && !quiet then true else printed)
        (fun p hp => hok p (List.mem_cons_of_mem _ hp))
      constructor
      · simp only [run_go, hb, List.filterMap_cons]
        exact hr.1
      · simp only [run_go, hb]
        exact hr.2

/-- C9: an open failure writes exactly one diagnostic line
`"<filename>: <error message>"`, leaves the content sink, the header
state and the abort status untouched, and the remaining files are
processed exactly as without it — an open failure alone never makes
`run` return an error.  Globally, on every run in which no emitter
call fails (byte mode always, line mode whenever each opened content
is valid UTF-8), the diagnostic sink holds exactly one such line per
failed open, in list order and nothing else, and `run` succeeds. -/
theorem run_diagnostics :
    (∀ (multi quiet : Bool) (ltv : TakeValue) (btv : Option TakeValue) (name e : String)
       (rest : List (String × Except String (List Nat))) (printed : Bool),
      run_go multi quiet ltv btv ((name, Except.error e) :: rest) printed =
        ((run_go multi quiet ltv btv rest printed).1,
         (name ++ ": " ++ e) :: (run_go multi quiet ltv btv rest printed).2.1,
         (run_go multi quiet ltv btv rest printed).2.2)) ∧
    (∀ (files : List (String × Except String (List Nat))) (ltv : TakeValue)
       (btv : Option TakeValue) (quiet : Bool),
      (∀ p ∈ files, ∀ c, p.2 = Except.ok c → (file_body ltv btv c).2 = none) →
      (run files ltv btv quiet).2.1 =
        files.filterMap (fun p =>
          match p.2 with
          | .error e => some (p.1 ++ ": " ++ e)
          | .ok _ => none) ∧
      (run files ltv btv quiet).2.2 = none) := by
  constructor
  · intro multi quiet ltv btv name e rest printed
    rfl
  · intro files ltv btv quiet h
    exact run_go_no_abort (decide (1 < files.length)) quiet ltv btv files false h

/-- C9 witness: a single file whose open fails. -/
theorem run_diagnostics_witness :
    (run [("a", Except.error "x")] (TakeValue.TakeNum (-10)) none false).2.1 =
      ([("a", Except.error "x")] : List (String × Except String (List Nat))).filterMap (fun p =>
        match p.2 with
        | .error e => some (p.1 ++ ": " ++ e)
        | .ok _ => none) ∧
    (run [("a", Except.error "x")] (TakeValue.TakeNum (-10)) none false).2.2 = none :=
  run_diagnostics.2 [("a", Except.error "x")] (TakeValue.TakeNum (-10)) none false
    (by
      intro p hp c hc
      simp only [List.mem_singleton] at hp
      subst hp
      simp at hc)

theorem run_go_first_ok_aux (ltv : TakeValue) (btv : Option TakeValue)
    (name : String) (content : List Nat)
    (rest : List (String × Except String (List Nat))) :
    ∀ (pre : List (String × Except String (List Nat))),
      (∀ p ∈ pre, ∃ e, p.2 = Except.error e) → ∀ printed : Bool,
      (run_go true false ltv btv (pre ++ (name, Except.ok content) :: rest) printed).1 =
        print_header_out name (!printed) ++ (file_body ltv btv content).1 ++
        (match (file_body ltv btv content).2 with
         | none => (run_go true false ltv btv rest true).1
         | some _ => []) := by
  intro pre
  induction pre with
  | nil =>
    intro _ printed
    cases hb : (file_body ltv btv content).2 with
    | none => simp [run_go, hb]
    | some e => simp [run_go, hb]
  | cons q pre2 ih =>
    intro hfail printed
    obtain ⟨n0, r0⟩ := q
    obtain ⟨e0, he0⟩ := hfail (n0, r0) (List.mem_cons_self _ _)
    simp only at he0
    subst he0
    rw [List.cons_append]
    show (run_go true false ltv btv (pre2 ++ (name, Except.ok content) :: rest) printed).1 = _
    exact ih (fun p hp => hfail p (List.mem_cons_of_mem _ hp)) printed

/-- C10: a file whose open fails contributes nothing to the content
sink — no header and no content — and leaves the header state
untouched; a first header never begins with a blank line; and with
several files listed and quiet off, when every file before the first
successfully opened one failed to open, the content sink starts with
that file's header rendered first (no preceding blank line), followed
by its emitted body and — unless the emitter aborted — the output of
the remaining files with the header state advanced. -/
theorem run_failed_open_frame :
    (∀ (multi quiet : Bool) (ltv : TakeValue) (btv : Option TakeValue) (name e : String)
       (rest : List (String × Except String (List Nat))) (printed : Bool),
      (run_go multi quiet ltv btv ((name, Except.error e) :: rest) printed).1 =
        (run_go multi quiet ltv btv rest printed).1) ∧
    (∀ name : String,
      print_header_out name true = strBytes ("==> " ++ name ++ " <==") ++ [10]) ∧
    (∀ (ltv : TakeValue) (btv : Option TakeValue)
       (pre : List (String × Except String (List Nat))) (name : String)
       (content : List Nat) (rest : List (String × Except String (List Nat))),
      (∀ p ∈ pre, ∃ e, p.2 = Except.error e) →
      1 < (pre ++ (name, Except.ok content) :: rest).length →
      (run (pre ++ (name, Except.ok content) :: rest) ltv btv false).1 =
        print_header_out name true ++ (file_body ltv btv content).1 ++
        (match (file_body ltv btv content).2 with
         | none => (run_go true false ltv btv rest true).1
         | some _ => [])) := by
  refine ⟨fun _ _ _ _ _ _ _ _ => rfl, fun name => rfl, ?_⟩
  intro ltv btv pre name content rest hfail hlen
  unfold run
  rw [show decide (1 < (pre ++ (name, Except.ok content) :: rest).length) = true from by
    simpa using hlen]
  have h := run_go_first_ok_aux ltv btv name content rest pre hfail false
  simpa using h

/-- C10 witness: one failing file followed by one successfully opened
valid-UTF-8 file, line mode, quiet off. -/
theorem run_failed_open_frame_witness :
    (run [("a", Except.error "x"), ("b", Except.ok [104, 105])]
        (TakeValue.TakeNum (-10)) none false).1 =
      print_header_out "b" true ++
      (file_body (TakeValue.TakeNum (-10)) none [104, 105]).1 ++
      (match (file_body (TakeValue.TakeNum (-10)) none [104, 105]).2 with
       | none => (run_go true false (TakeValue.TakeNum (-10)) none [] true).1
       | some _ => []) :=
  run_failed_open_frame.2.2 (TakeValue.TakeNum (-10)) none [("a", Except.error "x")] "b"
    [104, 105] []
    (by
      intro p hp
      simp only [List.mem_singleton] at hp
      subst hp
      exact ⟨"x", rfl⟩)
    (by simp)

end Tailr
